import Mathlib

/- Verification of the OpenAlex publication-retrieval pipeline
   (get_publications.py): inverted-index abstract reconstruction,
   vocabulary filtering with frequency ranking, paginated document
   fetching, and batch persistence with resume tracking. -/

namespace OpenAlex

/-- An abstract given as an inverted index: a Python dict in insertion
order, mapping each distinct word to the list of positions it occupies
in the original abstract. -/
abbrev AbstractIdx := List (String × List Nat)

/-- Total word count of the abstract:
`n_words = sum([len(v) for v in abstract_idx.values()])`. -/
def n_words (idx : AbstractIdx) : Nat :=
  (idx.map (fun p => p.2.length)).sum

/-- `DocRetriever.build_abstract`: starting from the empty string, for
`i in range(n_words)`, for `word in abstract_idx`, if
`i in abstract_idx[word]` then `text += word + ' '`. -/
def build_abstract (idx : AbstractIdx) : String :=
  (List.range (n_words idx)).foldl
    (fun text i =>
      idx.foldl (fun t p => if i ∈ p.2 then t ++ p.1 ++ " " else t) text) ""

/-- The words appended for position `i`, in dict order: every word whose
position list contains `i`. -/
def posWords (idx : AbstractIdx) (i : Nat) : List String :=
  idx.filterMap (fun p => if i ∈ p.2 then some p.1 else none)

/-- The word sequence produced by the reconstruction scan, obtained by
collecting, for each position `i` in order, the words appended for `i`. -/
def abstractWords (idx : AbstractIdx) : List String :=
  ((List.range (n_words idx)).map (posWords idx)).flatten

/-- Concatenation of a word sequence, each word followed by a single
trailing space. -/
def catWords (ws : List String) : String :=
  ws.foldr (fun w acc => w ++ " " ++ acc) ""

/-- How many times position `i` occurs across all position lists of the
index (counted with multiplicity). -/
def occCount (idx : AbstractIdx) (i : Nat) : Nat :=
  (idx.map (fun p => p.2.count i)).sum

lemma catWords_nil : catWords [] = "" := rfl

lemma catWords_cons (w : String) (ws : List String) :
    catWords (w :: ws) = w ++ " " ++ catWords ws := rfl

lemma string_empty_append (s : String) : "" ++ s = s := by
  apply String.ext
  rw [String.data_append]
  rfl

lemma catWords_append (a b : List String) :
    catWords (a ++ b) = catWords a ++ catWords b := by
  induction a with
  | nil =>
    rw [List.nil_append, catWords_nil, string_empty_append]
  | cons w ws ih =>
    rw [List.cons_append, catWords_cons, catWords_cons, ih,
      ← String.append_assoc]

lemma posWords_cons_mem (p : String × List Nat) (rest : AbstractIdx)
    (i : Nat) (h : i ∈ p.2) :
    posWords (p :: rest) i = p.1 :: posWords rest i := by
  simp only [posWords, List.filterMap_cons, if_pos h]

lemma posWords_cons_not_mem (p : String × List Nat) (rest : AbstractIdx)
    (i : Nat) (h : i ∉ p.2) :
    posWords (p :: rest) i = posWords rest i := by
  simp only [posWords, List.filterMap_cons, if_neg h]

lemma inner_foldl_eq (idx : AbstractIdx) (i : Nat) :
    ∀ text : String,
      idx.foldl (fun t p => if i ∈ p.2 then t ++ p.1 ++ " " else t) text
        = text ++ catWords (posWords idx i) := by
  induction idx with
  | nil => intro text; simp [posWords, catWords]
  | cons p rest ih =>
    intro text
    by_cases h : i ∈ p.2
    · simp only [List.foldl_cons, if_pos h]
      rw [ih, posWords_cons_mem p rest i h, catWords_cons,
        String.append_assoc, String.append_assoc, String.append_assoc]
    · simp only [List.foldl_cons, if_neg h]
      rw [ih, posWords_cons_not_mem p rest i h]

lemma outer_foldl_eq (idx : AbstractIdx) :
    ∀ (l : List Nat) (text : String),
      l.foldl (fun text i =>
          idx.foldl (fun t p => if i ∈ p.2 then t ++ p.1 ++ " " else t) text)
          text
        = text ++ catWords ((l.map (posWords idx)).flatten) := by
  intro l
  induction l with
  | nil => intro text; simp [catWords]
  | cons i rest ih =>
    intro text
    simp only [List.foldl_cons]
    rw [inner_foldl_eq idx i text, ih, List.map_cons, List.flatten_cons,
      catWords_append, String.append_assoc]

lemma build_abstract_eq_catWords (idx : AbstractIdx) :
    build_abstract idx = catWords (abstractWords idx) := by
  have h := outer_foldl_eq idx (List.range (n_words idx)) ""
  simpa [build_abstract, abstractWords] using h

lemma occCount_cons (q : String × List Nat) (rest : AbstractIdx) (i : Nat) :
    occCount (q :: rest) i = q.2.count i + occCount rest i := by
  simp [occCount]

lemma posWords_of_occCount_zero (i : Nat) :
    ∀ idx : AbstractIdx, occCount idx i = 0 → posWords idx i = [] := by
  intro idx
  induction idx with
  | nil => intro _; rfl
  | cons q rest ih =>
    intro h
    rw [occCount_cons] at h
    have hq : q.2.count i = 0 := by omega
    have hrest : occCount rest i = 0 := by omega
    have hqn : i ∉ q.2 := List.count_eq_zero.mp hq
    simp only [posWords, List.filterMap_cons, if_neg hqn]
    exact ih hrest

lemma occCount_pos (i : Nat) (p : String × List Nat) (hi : i ∈ p.2) :
    ∀ idx : AbstractIdx, p ∈ idx → 1 ≤ occCount idx i := by
  intro idx
  induction idx with
  | nil => intro hp; cases hp
  | cons q rest ih =>
    intro hp
    rw [occCount_cons]
    rcases List.mem_cons.mp hp with rfl | hp2
    · have : 0 < p.2.count i := List.count_pos_iff.mpr hi
      omega
    · have := ih hp2
      omega

lemma exists_pair_of_occCount_pos (i : Nat) :
    ∀ idx : AbstractIdx, 1 ≤ occCount idx i → ∃ p ∈ idx, i ∈ p.2 := by
  intro idx
  induction idx with
  | nil => intro h; simp [occCount] at h
  | cons q rest ih =>
    intro h
    by_cases hq : i ∈ q.2
    · exact ⟨q, List.mem_cons_self q rest, hq⟩
    · have hqc : q.2.count i = 0 := List.count_eq_zero.mpr hq
      rw [occCount_cons] at h
      obtain ⟨p, hp, hip⟩ := ih (by omega)
      exact ⟨p, List.mem_cons_of_mem q hp, hip⟩

lemma posWords_singleton (i : Nat) (p : String × List Nat) (hi : i ∈ p.2) :
    ∀ idx : AbstractIdx, occCount idx i = 1 → p ∈ idx →
      posWords idx i = [p.1] := by
  intro idx
  induction idx with
  | nil => intro _ hp; cases hp
  | cons q rest ih =>
    intro hocc hp
    rw [occCount_cons] at hocc
    rcases List.mem_cons.mp hp with rfl | hp2
    · have hc : 0 < p.2.count i := List.count_pos_iff.mpr hi
      have hrest : occCount rest i = 0 := by omega
      simp only [posWords, List.filterMap_cons, if_pos hi]
      rw [show List.filterMap
          (fun p => if i ∈ p.2 then some p.1 else none) rest
          = posWords rest i from rfl,
        posWords_of_occCount_zero i rest hrest]
    · have hrc : 1 ≤ occCount rest i := occCount_pos i p hi rest hp2
      have hqc : q.2.count i = 0 := by omega
      have hqn : i ∉ q.2 := List.count_eq_zero.mp hqc
      simp only [posWords, List.filterMap_cons, if_neg hqn]
      exact ih (by omega) hp2

lemma keys_inj :
    ∀ idx : AbstractIdx, (idx.map Prod.fst).Nodup →
      ∀ p ∈ idx, ∀ q ∈ idx, p.1 = q.1 → p = q := by
  intro idx
  induction idx with
  | nil => intro _ p hp; cases hp
  | cons r rest ih =>
    intro hnd p hp q hq heq
    rw [List.map_cons, List.nodup_cons] at hnd
    rcases List.mem_cons.mp hp with rfl | hp2
    · rcases List.mem_cons.mp hq with rfl | hq2
      · rfl
      · exact absurd (heq ▸ List.mem_map_of_mem Prod.fst hq2) hnd.1
    · rcases List.mem_cons.mp hq with rfl | hq2
      · exact absurd (heq ▸ List.mem_map_of_mem Prod.fst hp2) hnd.1
      · exact ih hnd.2 p hp2 q hq2 heq

lemma flatten_map_singleton {α β : Type} (l : List α) (f : α → List β)
    (g : α → β) (h : ∀ a ∈ l, f a = [g a]) :
    (l.map f).flatten = l.map g := by
  induction l with
  | nil => rfl
  | cons a as ih =>
    simp only [List.map_cons, List.flatten_cons,
      h a (List.mem_cons_self a as),
      ih (fun b hb => h b (List.mem_cons_of_mem a hb)), List.singleton_append]

lemma abstractWords_eq_map (idx : AbstractIdx)
    (hcov : ∀ i < n_words idx, occCount idx i = 1) :
    abstractWords idx
      = (List.range (n_words idx)).map (fun i => (posWords idx i).headD "") := by
  apply flatten_map_singleton
  intro i hi
  have hi2 : i < n_words idx := List.mem_range.mp hi
  obtain ⟨p, hp, hip⟩ :=
    exists_pair_of_occCount_pos i idx (le_of_eq (hcov i hi2).symm)
  have hs := posWords_singleton i p hip idx (hcov i hi2) hp
  rw [hs]
  rfl

lemma abstractWords_length (idx : AbstractIdx)
    (hcov : ∀ i < n_words idx, occCount idx i = 1) :
    (abstractWords idx).length = n_words idx := by
  rw [abstractWords_eq_map idx hcov, List.length_map, List.length_range]

lemma abstractWords_getD (idx : AbstractIdx)
    (hkeys : (idx.map Prod.fst).Nodup)
    (hcov : ∀ i < n_words idx, occCount idx i = 1)
    (p : String × List Nat) (hp : p ∈ idx) (i : Nat) (hi : i < n_words idx) :
    ((abstractWords idx).getD i "" = p.1 ↔ i ∈ p.2) := by
  rw [abstractWords_eq_map idx hcov]
  have hlen : i < ((List.range (n_words idx)).map
      (fun i => (posWords idx i).headD "")).length := by
    simpa using hi
  rw [List.getD_eq_getElem _ _ hlen, List.getElem_map, List.getElem_range]
  obtain ⟨q, hq, hiq⟩ :=
    exists_pair_of_occCount_pos i idx (le_of_eq (hcov i hi).symm)
  rw [posWords_singleton i q hiq idx (hcov i hi) hq]
  constructor
  · intro h
    have hqp : q = p := keys_inj idx hkeys q hq p hp (by simpa using h)
    rw [← hqp]
    exact hiq
  · intro hip
    have h1 := posWords_singleton i p hip idx (hcov i hi) hp
    have h2 := posWords_singleton i q hiq idx (hcov i hi) hq
    have : ([q.1] : List String) = [p.1] := by rw [← h2, h1]
    simpa using this

/-- Claim C1: for every inverted abstract index whose position lists
collectively cover positions `0 .. n_words - 1` exactly once (each such
position occurs exactly once across all lists) and whose keys are
distinct (a dict invariant), `build_abstract` returns the words
re-ordered by position, each word followed by a single trailing space;
the resulting word sequence has length `n_words` and each word appears
at exactly the indices specified by its position list. -/
theorem build_abstract_exactly_once (idx : AbstractIdx)
    (hkeys : (idx.map Prod.fst).Nodup)
    (hcov : ∀ i < n_words idx, occCount idx i = 1) :
    build_abstract idx = catWords (abstractWords idx)
    ∧ (abstractWords idx).length = n_words idx
    ∧ ∀ p ∈ idx, ∀ i < n_words idx,
        ((abstractWords idx).getD i "" = p.1 ↔ i ∈ p.2) :=
  ⟨build_abstract_eq_catWords idx, abstractWords_length idx hcov,
    fun p hp i hi => abstractWords_getD idx hkeys hcov p hp i hi⟩

/-- Witness for C1 at the concrete index mapping "b" to position 1 and
"a" to position 0. -/
theorem build_abstract_exactly_once_witness :
    build_abstract [("b", [1]), ("a", [0])]
        = catWords (abstractWords [("b", [1]), ("a", [0])])
    ∧ (abstractWords [("b", [1]), ("a", [0])]).length
        = n_words [("b", [1]), ("a", [0])]
    ∧ ((abstractWords [("b", [1]), ("a", [0])]).getD 0 "" = "a" ↔ 0 ∈ [0]) := by
  have h := build_abstract_exactly_once [("b", [1]), ("a", [0])]
    (by decide) (by decide)
  exact ⟨h.1, h.2.1, h.2.2 ("a", [0]) (by decide) 0 (by decide)⟩

/-- Index of the first occurrence of a word in a lemma sequence (the
length of the sequence if the word is absent). -/
def firstIdx : List String → String → Nat
  | [], _ => 0
  | x :: xs, w => if x = w then 0 else firstIdx xs w + 1

/-- The distinct lemmas in first-occurrence order: the key iteration
order of `Counter(lemmas)` (a Python dict preserves insertion order,
and `Counter` inserts each lemma when it is first counted). -/
def firstOccs : List String → List String
  | [] => []
  | x :: xs => x :: (firstOccs xs).filter (fun y => decide (y ≠ x))

/-- `Counter(lemmas)`: an insertion-ordered mapping from each distinct
lemma, in first-occurrence order, to its number of occurrences. -/
def counterOf (lemmas : List String) : List (String × Nat) :=
  (firstOccs lemmas).map (fun w => (w, lemmas.count w))

/-- One step of a stable insertion sort by descending count: the element
being inserted comes from earlier in the iteration order, so it is
placed before any element whose count is not larger. -/
def insertByCount (x : String × Nat) :
    List (String × Nat) → List (String × Nat)
  | [] => [x]
  | y :: ys => if x.2 < y.2 then y :: insertByCount x ys else x :: y :: ys

/-- `Counter.most_common()`: the counter entries sorted by descending
count. CPython implements it as `sorted(items, key=count, reverse=True)`
with a stable sort, so entries with equal counts keep their insertion
order; a stable insertion sort computes the same list. -/
def most_common (l : List (String × Nat)) : List (String × Nat) :=
  l.foldr insertByCount []

/-- Lines 79 to 84 of `DocRetriever.process_texts`: count the lemmas,
keep, in first-occurrence order, the entries whose word is in the
vocabulary, and return the words of `most_common()` of that counter. -/
def rank_lemmas (lemmas vocab : List String) : List String :=
  (most_common ((counterOf lemmas).filter
    (fun p => decide (p.1 ∈ vocab)))).map Prod.fst

lemma mem_firstOccs (l : List String) (a : String) :
    a ∈ firstOccs l ↔ a ∈ l := by
  induction l with
  | nil => simp [firstOccs]
  | cons x xs ih =>
    simp only [firstOccs, List.mem_cons, List.mem_filter, ih,
      decide_eq_true_eq]
    by_cases hax : a = x
    · simp [hax]
    · simp [hax]

lemma firstOccs_nodup (l : List String) : (firstOccs l).Nodup := by
  induction l with
  | nil => simp [firstOccs]
  | cons x xs ih =>
    refine List.nodup_cons.mpr ⟨?_, ih.filter _⟩
    intro hx
    have := (List.mem_filter.mp hx).2
    simp at this

lemma firstOccs_pairwise (l : List String) :
    (firstOccs l).Pairwise (fun a b => firstIdx l a < firstIdx l b) := by
  induction l with
  | nil => simp [firstOccs]
  | cons x xs ih =>
    refine List.Pairwise.cons ?_ ?_
    · intro b hb
      have hbx : b ≠ x := by
        have := (List.mem_filter.mp hb).2
        simpa using this
      have hfx : firstIdx (x :: xs) x = 0 := by simp [firstIdx]
      have hfb : firstIdx (x :: xs) b = firstIdx xs b + 1 := by
        simp [firstIdx, Ne.symm hbx]
      omega
    · have hsub : ((firstOccs xs).filter
          (fun y => decide (y ≠ x))).Pairwise
            (fun a b => firstIdx xs a < firstIdx xs b) :=
        List.Pairwise.sublist (List.filter_sublist _) ih
      refine hsub.imp_of_mem ?_
      intro a b ha hb hab
      have hax : a ≠ x := by simpa using (List.mem_filter.mp ha).2
      have hbx : b ≠ x := by simpa using (List.mem_filter.mp hb).2
      simp only [firstIdx, Ne.symm hax, Ne.symm hbx, if_false]
      omega

lemma insertByCount_perm (x : String × Nat) (l : List (String × Nat)) :
    (insertByCount x l).Perm (x :: l) := by
  induction l with
  | nil => exact List.Perm.refl _
  | cons y ys ih =>
    by_cases h : x.2 < y.2
    · simp only [insertByCount, if_pos h]
      exact (ih.cons y).trans (List.Perm.swap x y ys)
    · simp only [insertByCount, if_neg h]
      exact List.Perm.refl _

lemma most_common_perm (l : List (String × Nat)) :
    (most_common l).Perm l := by
  induction l with
  | nil => exact List.Perm.refl _
  | cons x rest ih =>
    exact (insertByCount_perm x (most_common rest)).trans (ih.cons x)

lemma insertByCount_pairwise {R : (String × Nat) → (String × Nat) → Prop}
    (x : String × Nat) :
    ∀ l : List (String × Nat), (∀ y ∈ l, R x y) →
      l.Pairwise (fun p q => q.2 ≤ p.2 ∧ (p.2 ≤ q.2 → R p q)) →
      (insertByCount x l).Pairwise
        (fun p q => q.2 ≤ p.2 ∧ (p.2 ≤ q.2 → R p q)) := by
  intro l
  induction l with
  | nil => intro _ _; simp [insertByCount]
  | cons y ys ih =>
    intro hx hl
    obtain ⟨hy, hys⟩ := List.pairwise_cons.mp hl
    by_cases h : x.2 < y.2
    · simp only [insertByCount, if_pos h]
      refine List.Pairwise.cons ?_ ?_
      · intro z hz
        rcases (insertByCount_perm x ys).mem_iff.mp hz with hz2
        rcases List.mem_cons.mp hz2 with rfl | hz3
        · exact ⟨Nat.le_of_lt h, fun hc => absurd (Nat.lt_of_lt_of_le h hc)
            (lt_irrefl _)⟩
        · exact hy z hz3
      · exact ih (fun z hz => hx z (List.mem_cons_of_mem y hz)) hys
    · simp only [insertByCount, if_neg h]
      refine List.Pairwise.cons ?_ hl
      intro z hz
      rcases List.mem_cons.mp hz with rfl | hz2
      · exact ⟨Nat.le_of_not_lt h, fun _ => hx z (List.mem_cons_self z ys)⟩
      · have hzy := hy z hz2
        exact ⟨Nat.le_trans hzy.1 (Nat.le_of_not_lt h),
          fun _ => hx z (List.mem_cons_of_mem y hz2)⟩

lemma most_common_pairwise {R : (String × Nat) → (String × Nat) → Prop} :
    ∀ l : List (String × Nat), l.Pairwise R →
      (most_common l).Pairwise
        (fun p q => q.2 ≤ p.2 ∧ (p.2 ≤ q.2 → R p q)) := by
  intro l
  induction l with
  | nil => intro _; simp [most_common]
  | cons x rest ih =>
    intro hl
    obtain ⟨hx, hrest⟩ := List.pairwise_cons.mp hl
    exact insertByCount_pairwise x (most_common rest)
      (fun y hy => hx y ((most_common_perm rest).mem_iff.mp hy)) (ih hrest)

lemma counterOf_snd {lemmas : List String} {p : String × Nat}
    (hp : p ∈ counterOf lemmas) : p.2 = lemmas.count p.1 := by
  obtain ⟨w, _, rfl⟩ := List.mem_map.mp hp
  rfl

lemma counterOf_keys (lemmas : List String) :
    (counterOf lemmas).map Prod.fst = firstOccs lemmas := by
  rw [counterOf, List.map_map]
  exact List.map_id' _

lemma mem_rank_lemmas (lemmas vocab : List String) (w : String) :
    w ∈ rank_lemmas lemmas vocab ↔ w ∈ lemmas ∧ w ∈ vocab := by
  simp only [rank_lemmas, List.mem_map]
  constructor
  · rintro ⟨p, hp, rfl⟩
    have hp2 := (most_common_perm _).mem_iff.mp hp
    obtain ⟨hpc, hpv⟩ := List.mem_filter.mp hp2
    have hw : p.1 ∈ firstOccs lemmas := by
      rw [← counterOf_keys lemmas]
      exact List.mem_map_of_mem Prod.fst hpc
    exact ⟨(mem_firstOccs lemmas p.1).mp hw, by simpa using hpv⟩
  · rintro ⟨hwl, hwv⟩
    refine ⟨(w, lemmas.count w), ?_, rfl⟩
    rw [(most_common_perm _).mem_iff, List.mem_filter]
    constructor
    · exact List.mem_map_of_mem _ ((mem_firstOccs lemmas w).mpr hwl)
    · simpa using hwv

lemma rank_lemmas_nodup (lemmas vocab : List String) :
    (rank_lemmas lemmas vocab).Nodup := by
  have hperm : (rank_lemmas lemmas vocab).Perm
      (((counterOf lemmas).filter
        (fun p => decide (p.1 ∈ vocab))).map Prod.fst) :=
    (most_common_perm _).map Prod.fst
  have hsub : (((counterOf lemmas).filter
      (fun p => decide (p.1 ∈ vocab))).map Prod.fst).Sublist
      ((counterOf lemmas).map Prod.fst) :=
    (List.filter_sublist _).map Prod.fst
  have hnd : ((counterOf lemmas).map Prod.fst).Nodup := by
    rw [counterOf_keys]
    exact firstOccs_nodup lemmas
  exact hperm.nodup_iff.mpr (hnd.sublist hsub)

lemma rank_lemmas_pairwise (lemmas vocab : List String) :
    (rank_lemmas lemmas vocab).Pairwise (fun a b =>
      lemmas.count b ≤ lemmas.count a
      ∧ (lemmas.count a ≤ lemmas.count b →
          firstIdx lemmas a < firstIdx lemmas b)) := by
  have h0 : (counterOf lemmas).Pairwise
      (fun p q => firstIdx lemmas p.1 < firstIdx lemmas q.1) := by
    rw [counterOf]
    exact List.pairwise_map.mpr (firstOccs_pairwise lemmas)
  have h1 : (((counterOf lemmas).filter
      (fun p => decide (p.1 ∈ vocab)))).Pairwise
      (fun p q => firstIdx lemmas p.1 < firstIdx lemmas q.1) :=
    List.Pairwise.sublist (List.filter_sublist _) h0
  have h2 := most_common_pairwise _ h1
  rw [rank_lemmas, List.pairwise_map]
  refine h2.imp_of_mem ?_
  intro p q hp hq hpq
  have hpc : p.2 = lemmas.count p.1 :=
    counterOf_snd (List.mem_of_mem_filter ((most_common_perm _).mem_iff.mp hp))
  have hqc : q.2 = lemmas.count q.1 :=
    counterOf_snd (List.mem_of_mem_filter ((most_common_perm _).mem_iff.mp hq))
  rw [hpc, hqc] at hpq
  exact hpq

/-- Claim C2: for every input lemma sequence and vocabulary,
`process_texts` (its counting and ranking stage, `rank_lemmas`) returns
the distinct in-vocabulary lemmas sorted by descending occurrence count,
lemmas with equal counts appearing in the order of their first
occurrence in the input; and on `[a, b, a, c, b]` with vocabulary
`[a, b, c]` the output is `[a, b, c]`. -/
theorem process_texts_ranking :
    (∀ lemmas vocab : List String,
      (rank_lemmas lemmas vocab).Nodup
      ∧ (rank_lemmas lemmas vocab).Pairwise (fun a b =>
          lemmas.count b ≤ lemmas.count a
          ∧ (lemmas.count a ≤ lemmas.count b →
              firstIdx lemmas a < firstIdx lemmas b))
      ∧ ∀ w, w ∈ rank_lemmas lemmas vocab ↔ w ∈ lemmas ∧ w ∈ vocab)
    ∧ rank_lemmas ["a", "b", "a", "c", "b"] ["a", "b", "c"]
        = ["a", "b", "c"] :=
  ⟨fun lemmas vocab =>
    ⟨rank_lemmas_nodup lemmas vocab, rank_lemmas_pairwise lemmas vocab,
      mem_rank_lemmas lemmas vocab⟩,
    by decide⟩

/-- Witness for C2: the general part of the theorem evaluated on the
concrete sequence `[b, a, a]` with vocabulary `[a, b]`. -/
theorem process_texts_ranking_witness :
    (rank_lemmas ["b", "a", "a"] ["a", "b"]).Nodup
    ∧ ("a" ∈ rank_lemmas ["b", "a", "a"] ["a", "b"]
        ↔ "a" ∈ ["b", "a", "a"] ∧ "a" ∈ ["a", "b"]) :=
  ⟨(process_texts_ranking.1 ["b", "a", "a"] ["a", "b"]).1,
    (process_texts_ranking.1 ["b", "a", "a"] ["a", "b"]).2.2 "a"⟩

/-- Claim C7: every lemma absent from the vocabulary is dropped entirely
from the ranker's output, including repeated occurrences: on input
`[a, b, b, c]` with vocabulary `[a, c]` the output is `[a, c]`, and the
output may be empty when no lemma is in-vocabulary. -/
theorem oov_lemmas_dropped :
    (∀ (lemmas vocab : List String) (w : String),
      w ∈ rank_lemmas lemmas vocab → w ∈ vocab)
    ∧ rank_lemmas ["a", "b", "b", "c"] ["a", "c"] = ["a", "c"]
    ∧ rank_lemmas ["b"] ["a"] = [] :=
  ⟨fun lemmas vocab w hw => ((mem_rank_lemmas lemmas vocab w).mp hw).2,
    by decide, by decide⟩

/-- Witness for C7: the membership part applied at the concrete word
"a", ranked from `[a, b]` against vocabulary `[a, c]`. -/
theorem oov_lemmas_dropped_witness : ("a" : String) ∈ ["a", "c"] :=
  oov_lemmas_dropped.1 ["a", "b"] ["a", "c"] "a" (by decide)

/-- Python slicing `abstract[-2:]`: the last two characters of the
string, or the whole string when it is shorter than two characters. -/
def lastTwo (s : String) : String := ⟨s.data.drop (s.data.length - 2)⟩

/-- Lines 67 and 68 of `DocRetriever.process_texts`:
`if abstract[-2:] != '. ': abstract += '. '`. -/
def ensureSep (abstract : String) : String :=
  if lastTwo abstract ≠ ". " then abstract ++ ". " else abstract

/-- Line 69 of `DocRetriever.process_texts`: the lemmatization unit
handed to the tagger is `Sentence(abstract + title)`, built after the
separator fix. -/
def lemmaInput (idx : AbstractIdx) (title : String) : String :=
  ensureSep (build_abstract idx) ++ title

lemma lastTwo_eq_iff (s : String) :
    lastTwo s = ". " ↔ ∃ t : String, s = t ++ ". " := by
  constructor
  · intro h
    refine ⟨⟨s.data.take (s.data.length - 2)⟩, ?_⟩
    apply String.ext
    rw [String.data_append]
    have hd : s.data.drop (s.data.length - 2) = ('.' :: ' ' :: []) :=
      congrArg String.data h
    calc s.data = s.data.take (s.data.length - 2)
          ++ s.data.drop (s.data.length - 2) :=
        (List.take_append_drop _ _).symm
      _ = s.data.take (s.data.length - 2) ++ ('.' :: ' ' :: []) := by
        rw [hd]
  · rintro ⟨t, rfl⟩
    apply String.ext
    show (t ++ ". ").data.drop ((t ++ ". ").data.length - 2)
        = ('.' :: ' ' :: [])
    rw [String.data_append]
    have hl : (t.data ++ (". " : String).data).length - 2 = t.data.length := by
      simp
    rw [hl]
    exact List.drop_left t.data _

lemma append_sep_ne (s : String) : s ++ ". " ≠ s := by
  intro h
  have h2 := congrArg (fun u => u.data.length) h
  simp [String.data_append] at h2

/-- Claim C8: a `'. '` separator is appended to the reconstructed
abstract if and only if it does not already end with the sentence
terminator `'.'` followed by a space; text that already ends that way is
left unchanged, and the result always ends with the separator, so the
lemmatization unit has a separator between abstract and title. -/
theorem separator_appended_iff (s : String) :
    (ensureSep s = s ↔ ∃ t : String, s = t ++ ". ")
    ∧ (¬ (∃ t : String, s = t ++ ". ") → ensureSep s = s ++ ". ")
    ∧ ∃ t : String, ensureSep s = t ++ ". " := by
  by_cases h : lastTwo s = ". "
  · have he : ensureSep s = s := by
      rw [ensureSep, if_neg (by simpa using h)]
    obtain ⟨t, ht⟩ := (lastTwo_eq_iff s).mp h
    exact ⟨⟨fun _ => ⟨t, ht⟩, fun _ => he⟩,
      fun hc => absurd ⟨t, ht⟩ hc, ⟨t, he.trans ht⟩⟩
  · have he : ensureSep s = s ++ ". " := by
      rw [ensureSep, if_pos (by simpa using h)]
    refine ⟨?_, fun _ => he, ⟨s, he⟩⟩
    constructor
    · intro hc
      exact absurd (he ▸ hc) (append_sep_ne s)
    · intro hex
      exact absurd ((lastTwo_eq_iff s).mpr hex) h

/-- Witness for C8: a string already ending in the separator is left
unchanged. -/
theorem separator_appended_iff_witness : ensureSep "a. " = "a. " :=
  (separator_appended_iff "a. ").1.mpr ⟨"a", by decide⟩

/-- Claim C9: the empty inverted index reconstructs to the empty string
without error, and the separator fix still prepends `'. '` before the
title, so a document with an empty abstract index is processed. -/
theorem empty_abstract_processed (title : String) :
    build_abstract [] = ""
    ∧ ensureSep (build_abstract []) = ". "
    ∧ lemmaInput [] title = ". " ++ title := by
  refine ⟨rfl, by decide, ?_⟩
  show ensureSep (build_abstract []) ++ title = ". " ++ title
  rw [show ensureSep (build_abstract []) = ". " from by decide]

/-- One document of a page's results: its title (display_name), its
abstract inverted index (none models JSON null), and its concepts as
(id, score) pairs; the yielded subjects dict is the comprehension over
these pairs. -/
structure RawDoc where
  display_name : String
  abstract_inverted_index : Option AbstractIdx
  concepts : List (String × Rat)
  deriving DecidableEq

/-- One yielded record of `get_docs`: the processed text data and the
subject scores. -/
structure ProcDoc where
  data : List String
  subjects : List (String × Rat)
  deriving DecidableEq

/-- `DocRetriever.get_docs`, inner for-loop over one page's results:
each document whose abstract index is non-null is processed (the
abstract `texts` function stands for `process_texts`, whose tagger and
lemmatizer may raise) and yielded; after incrementing, the loop returns
early once `yielded == n`. The generator is modelled eagerly, which
agrees with the lazy one because `main` always drains it; an exception
from `texts` propagates, since get_publications.py has no try/except. -/
def processPage {ε : Type} (texts : String → AbstractIdx → Except ε (List String))
    (n : Nat) :
    List RawDoc → Nat → List ProcDoc → Except ε (List ProcDoc × Nat × Bool)
  | [], yielded, acc => .ok (acc, yielded, false)
  | doc :: rest, yielded, acc =>
    match doc.abstract_inverted_index with
    | none => processPage texts n rest yielded acc
    | some ab =>
      match texts doc.display_name ab with
      | .error e => .error e
      | .ok dat =>
        if yielded + 1 = n then
          .ok (acc ++ [⟨dat, doc.concepts⟩], yielded + 1, true)
        else
          processPage texts n rest (yielded + 1) (acc ++ [⟨dat, doc.concepts⟩])

/-- `DocRetriever.get_docs`, outer while-loop over pages: while
`yielded < n`, take the next page response; when the response lacks the
results field (page = none) log and return, keeping what was yielded;
otherwise walk the page. The input list is the modelled prefix of the
upstream response stream; running off its end — the code would keep
requesting pages — gives `none` (undetermined within the model). -/
def getDocsLoop {ε : Type} (texts : String → AbstractIdx → Except ε (List String))
    (n : Nat) :
    List (Option (List RawDoc)) → Nat → List ProcDoc →
      Except ε (Option (List ProcDoc))
  | [], yielded, acc =>
    if yielded < n then .ok none else .ok (some acc)
  | page :: pages, yielded, acc =>
    if yielded < n then
      match page with
      | none => .ok (some acc)
      | some docs =>
        match processPage texts n docs yielded acc with
        | .error e => .error e
        | .ok (acc2, y2, early) =>
          if early then .ok (some acc2) else getDocsLoop texts n pages y2 acc2
    else .ok (some acc)

/-- `DocRetriever.get_docs(url, n)`: starts with `yielded, page = 0, 1`
and no output. -/
def get_docs {ε : Type} (texts : String → AbstractIdx → Except ε (List String))
    (pages : List (Option (List RawDoc))) (n : Nat) :
    Except ε (Option (List ProcDoc)) :=
  getDocsLoop texts n pages 0 []

/-- A total processing function, which never raises. -/
def totalTexts (f : String → AbstractIdx → List String) :
    String → AbstractIdx → Except Empty (List String) :=
  fun t ab => .ok (f t ab)

/-- A document qualifies iff its abstract inverted index is non-null. -/
def qualifies (d : RawDoc) : Bool := d.abstract_inverted_index.isSome

/-- The record yielded for a qualifying document. -/
def procOf (f : String → AbstractIdx → List String) (d : RawDoc) : ProcDoc :=
  match d.abstract_inverted_index with
  | some ab => ⟨f d.display_name ab, d.concepts⟩
  | none => ⟨[], []⟩

/-- All result documents on pages strictly before the first response
lacking the results field. -/
def resultsBeforeExhaustion : List (Option (List RawDoc)) → List RawDoc
  | [] => []
  | none :: _ => []
  | some docs :: rest => docs ++ resultsBeforeExhaustion rest

lemma qualifies_none {d : RawDoc} (h : d.abstract_inverted_index = none) :
    qualifies d = false := by
  simp [qualifies, h]

lemma qualifies_some {d : RawDoc} {ab : AbstractIdx}
    (h : d.abstract_inverted_index = some ab) : qualifies d = true := by
  simp [qualifies, h]

lemma procOf_some {f : String → AbstractIdx → List String} {d : RawDoc}
    {ab : AbstractIdx} (h : d.abstract_inverted_index = some ab) :
    procOf f d = ⟨f d.display_name ab, d.concepts⟩ := by
  rw [procOf, h]

lemma processPage_total_ge (f : String → AbstractIdx → List String) (n : Nat) :
    ∀ (docs : List RawDoc) (yielded : Nat) (acc : List ProcDoc),
      yielded < n →
      n - yielded ≤ (docs.filter qualifies).length →
      processPage (totalTexts f) n docs yielded acc
        = .ok (acc
            ++ ((docs.filter qualifies).take (n - yielded)).map (procOf f),
          n, true) := by
  intro docs
  induction docs with
  | nil =>
    intro yielded acc h1 h2
    simp only [List.filter_nil, List.length_nil] at h2
    omega
  | cons doc rest ih =>
    intro yielded acc h1 h2
    cases hq : doc.abstract_inverted_index with
    | none =>
      rw [processPage, hq]
      rw [List.filter_cons_of_neg (by simp [qualifies_none hq])] at h2 ⊢
      exact ih yielded acc h1 h2
    | some ab =>
      simp only [processPage, hq, totalTexts]
      rw [List.filter_cons_of_pos (by simp [qualifies_some hq])] at h2 ⊢
      by_cases hy : yielded + 1 = n
      · rw [if_pos hy]
        have ht : n - yielded = 1 := by omega
        rw [ht, List.take_cons (by omega), List.take_zero, List.map_cons,
          List.map_nil, procOf_some hq]
        simp only [hy]
      · have hlt : yielded + 1 < n := by omega
        have h2r : n - (yielded + 1) ≤ (rest.filter qualifies).length := by
          simp only [List.length_cons] at h2
          omega
        rw [if_neg hy, ih (yielded + 1) _ hlt h2r]
        have htk : n - yielded = (n - (yielded + 1)) + 1 := by omega
        rw [htk, List.take_cons (by omega), List.map_cons, procOf_some hq,
          List.append_assoc]
        rfl

lemma processPage_total_lt (f : String → AbstractIdx → List String) (n : Nat) :
    ∀ (docs : List RawDoc) (yielded : Nat) (acc : List ProcDoc),
      (docs.filter qualifies).length < n - yielded →
      processPage (totalTexts f) n docs yielded acc
        = .ok (acc ++ ((docs.filter qualifies).map (procOf f)),
            yielded + (docs.filter qualifies).length, false) := by
  intro docs
  induction docs with
  | nil =>
    intro yielded acc _
    simp [processPage]
  | cons doc rest ih =>
    intro yielded acc h2
    cases hq : doc.abstract_inverted_index with
    | none =>
      rw [processPage, hq]
      rw [List.filter_cons_of_neg (by simp [qualifies_none hq])] at h2 ⊢
      exact ih yielded acc h2
    | some ab =>
      simp only [processPage, hq, totalTexts]
      rw [List.filter_cons_of_pos (by simp [qualifies_some hq])] at h2 ⊢
      simp only [List.length_cons] at h2
      have hy : ¬ (yielded + 1 = n) := by omega
      rw [if_neg hy, ih (yielded + 1) _ (by omega)]
      rw [List.map_cons, procOf_some hq, List.append_assoc,
        List.length_cons]
      have : yielded + 1 + (rest.filter qualifies).length
          = yielded + ((rest.filter qualifies).length + 1) := by omega
      rw [this]
      rfl

lemma getDocsLoop_spec (f : String → AbstractIdx → List String) (n : Nat) :
    ∀ (pages : List (Option (List RawDoc))) (yielded : Nat)
      (acc out : List ProcDoc),
      yielded < n → yielded = acc.length →
      getDocsLoop (totalTexts f) n pages yielded acc = .ok (some out) →
      out = acc ++ (((resultsBeforeExhaustion pages).filter qualifies).take
          (n - yielded)).map (procOf f)
      ∧ (out.length = n ∨ none ∈ pages) := by
  intro pages
  induction pages with
  | nil =>
    intro yielded acc out h1 _ hrun
    simp only [getDocsLoop] at hrun
    rw [if_pos h1] at hrun
    exact absurd hrun (by simp)
  | cons page rest ih =>
    intro yielded acc out h1 hlen hrun
    cases page with
    | none =>
      simp only [getDocsLoop] at hrun
      rw [if_pos h1] at hrun
      simp only [Except.ok.injEq, Option.some.injEq] at hrun
      subst hrun
      refine ⟨by simp [resultsBeforeExhaustion], Or.inr ?_⟩
      exact List.mem_cons_self none rest
    | some docs =>
      simp only [getDocsLoop] at hrun
      rw [if_pos h1] at hrun
      by_cases hq : n - yielded ≤ (docs.filter qualifies).length
      · rw [processPage_total_ge f n docs yielded acc h1 hq] at hrun
        simp only [if_pos, Except.ok.injEq, Option.some.injEq] at hrun
        subst hrun
        constructor
        · rw [resultsBeforeExhaustion, List.filter_append,
            List.take_append_of_le_length hq]
        · left
          rw [List.length_append, List.length_map, List.length_take]
          omega
      · have hlt : (docs.filter qualifies).length < n - yielded := by omega
        rw [processPage_total_lt f n docs yielded acc hlt] at hrun
        simp only [if_neg, Bool.false_eq_true, not_false_eq_true,
          reduceIte] at hrun
        have h1r : yielded + (docs.filter qualifies).length < n := by omega
        have hlenr : yielded + (docs.filter qualifies).length
            = (acc ++ (docs.filter qualifies).map (procOf f)).length := by
          rw [List.length_append, List.length_map]
          omega
        obtain ⟨ho, hl⟩ := ih _ _ out h1r hlenr hrun
        constructor
        · rw [ho, resultsBeforeExhaustion, List.filter_append,
            List.take_append_eq_append_take, List.append_assoc,
            ← List.map_append]
          have ht1 : ((docs.filter qualifies)).take (n - yielded)
              = docs.filter qualifies :=
            List.take_of_length_le (by omega)
          have ht2 : n - yielded - (docs.filter qualifies).length
              = n - (yielded + (docs.filter qualifies).length) := by omega
          rw [ht1, ht2]
        · rcases hl with hl | hl
          · exact Or.inl hl
          · exact Or.inr (List.mem_cons_of_mem _ hl)

/-- Claim C4: for a target count of at least 1, whenever `get_docs`
terminates within the modelled page prefix, it yields the first `n`
qualifying documents (a document qualifies iff its abstract inverted
index is non-null; null-abstract documents are skipped and do not
count), each processed in order; the yield has length `n` unless a page
response lacking the results field was encountered first, in which case
the documents yielded so far are retained. -/
theorem get_docs_yield_count (f : String → AbstractIdx → List String)
    (pages : List (Option (List RawDoc))) (n : Nat) (out : List ProcDoc)
    (hn : 1 ≤ n)
    (h : get_docs (totalTexts f) pages n = .ok (some out)) :
    out = (((resultsBeforeExhaustion pages).filter qualifies).take n).map
        (procOf f)
    ∧ (out.length = n ∨ (none ∈ pages ∧ out.length < n)) := by
  obtain ⟨ho, hl⟩ := getDocsLoop_spec f n pages 0 [] out (by omega) rfl h
  rw [List.nil_append, Nat.sub_zero] at ho
  refine ⟨ho, ?_⟩
  by_cases hlen : out.length = n
  · exact Or.inl hlen
  · rcases hl with h1 | h2
    · exact Or.inl h1
    · refine Or.inr ⟨h2, ?_⟩
      have hle : out.length ≤ n := by
        rw [ho, List.length_map, List.length_take]
        omega
      omega

/-- A document with a null abstract index, which never qualifies. -/
def nullDoc : RawDoc := ⟨"t2", none, []⟩

/-- A qualifying document with an empty abstract index. -/
def okDoc : RawDoc := ⟨"t1", some [], []⟩

/-- Witness for C4: one page whose first document has a null abstract
and whose second qualifies; with n = 1 the null-abstract document is
skipped and the qualifying one is yielded. -/
theorem get_docs_yield_count_witness :
    ([⟨[], []⟩] : List ProcDoc)
        = (((resultsBeforeExhaustion [some [nullDoc, okDoc]]).filter
              qualifies).take 1).map (procOf (fun _ _ => []))
    ∧ (([⟨[], []⟩] : List ProcDoc).length = 1
        ∨ (none ∈ [some [nullDoc, okDoc]]
            ∧ ([⟨[], []⟩] : List ProcDoc).length < 1)) :=
  get_docs_yield_count (fun _ _ => [])
    [some [nullDoc, okDoc]] 1 [⟨[], []⟩]
    (by decide) rfl

/-- A processing function that raises on the document titled "bad",
modelling a tagger or lemmatizer exception for that document. -/
def failingTexts : String → AbstractIdx → Except String (List String) :=
  fun t _ => if t = "bad" then .error "boom" else .ok []

/-- A document whose processing raises. -/
def badDoc : RawDoc := ⟨"bad", some [], []⟩

/-- A document whose processing succeeds. -/
def goodDoc : RawDoc := ⟨"good", some [], []⟩

/-- Counterexample to claim C3 as stated: get_publications.py contains
no try/except, so on a page holding a failing document followed by a
processable one, `get_docs` does not drop the failing document and
continue: the exception propagates and no document list at all is
produced (in particular not the one containing only the good
document). -/
theorem doc_failure_not_caught_cex :
    get_docs failingTexts [some [badDoc, goodDoc]] 2 = .error "boom"
    ∧ get_docs failingTexts [some [badDoc, goodDoc]] 2
        ≠ .ok (some [⟨[], []⟩]) := by
  refine ⟨rfl, ?_⟩
  intro h
  have h2 : (Except.error "boom"
      : Except String (Option (List ProcDoc))) = .ok (some [⟨[], []⟩]) :=
    Eq.trans rfl h
  exact Except.noConfusion h2

/-- Amended C3: an exception raised while reconstructing, tagging or
lemmatizing a document is not caught: when a document's processing
raises, `get_docs` propagates the exception (here: the page's first
document), so the run aborts instead of logging, dropping the document
and continuing with subsequent documents and subjects. -/
theorem doc_failure_propagates {ε : Type}
    (texts : String → AbstractIdx → Except ε (List String))
    (doc : RawDoc) (docs : List RawDoc)
    (pages : List (Option (List RawDoc))) (n : Nat) (ab : AbstractIdx)
    (e : ε) (hq : doc.abstract_inverted_index = some ab)
    (he : texts doc.display_name ab = .error e) (hn : 0 < n) :
    get_docs texts (some (doc :: docs) :: pages) n = .error e := by
  rw [get_docs, getDocsLoop, if_pos hn]
  simp only [processPage, hq, he]

/-- Witness for the amended C3 at a concrete failing document. -/
theorem doc_failure_propagates_witness :
    get_docs failingTexts [some [badDoc]] 1 = .error "boom" :=
  doc_failure_propagates failingTexts badDoc [] [] 1 [] "boom" rfl rfl
    (by decide)

/-- `get_done_subjects`: scan every persisted unit and collect the
subject keys it contains (iterating a loaded JSON object yields its
keys), concatenated over all existing files. -/
def get_done_subjects {α : Type} (files : List (List (String × α))) :
    List String :=
  (files.map (fun u => u.map Prod.fst)).flatten

/-- The subject keys across a list of persisted units, in order. -/
def unitsKeys {α : Type} (files : List (List (String × α))) : List String :=
  (files.map (fun u => u.map Prod.fst)).flatten

/-- The record count of a persisted unit: the total number of documents
over all its subjects. -/
def recordCount {δ : Type} (u : List (String × List δ)) : Nat :=
  (u.map (fun p => p.2.length)).sum

/-- The loop of `main` (lines 106 to 122): for each subject not already
done, drain its documents (`fetch` stands for consuming
`retriever.get_docs(data['works_api_url'], n_docs)` into
`batch[subject]`), append them to the batch under the subject's key and
add their number to `cnt`; after the subject completes, if `cnt`
reached `n_file`, persist the batch as one unit and start a fresh empty
batch with `cnt = 0`; once subjects are exhausted, persist any
non-empty leftover batch. The batch dict is an association list, which
agrees with the Python dict because a subject key is assigned at most
once between flushes. -/
def mainLoop {σ δ : Type} (fetch : σ → List δ) (done : List String)
    (n_file : Nat) :
    List (String × σ) → List (String × List δ) → Nat →
      List (List (String × List δ)) → List (List (String × List δ))
  | [], batch, _, files =>
    if 0 < batch.length then files ++ [batch] else files
  | (s, d) :: rest, batch, cnt, files =>
    if s ∈ done then mainLoop fetch done n_file rest batch cnt files
    else
      if n_file ≤ cnt + (fetch d).length then
        mainLoop fetch done n_file rest [] 0
          (files ++ [batch ++ [(s, fetch d)]])
      else
        mainLoop fetch done n_file rest (batch ++ [(s, fetch d)])
          (cnt + (fetch d).length) files

/-- `main`: starts with an empty batch, record count 0 and no files. -/
def mainRun {σ δ : Type} (fetch : σ → List δ) (subjects : List (String × σ))
    (done : List String) (n_file : Nat) : List (List (String × List δ)) :=
  mainLoop fetch done n_file subjects [] 0 []

lemma unitsKeys_append {α : Type} (a b : List (List (String × α))) :
    unitsKeys (a ++ b) = unitsKeys a ++ unitsKeys b := by
  simp [unitsKeys]

lemma unitsKeys_single {α : Type} (u : List (String × α)) :
    unitsKeys [u] = u.map Prod.fst := by
  simp [unitsKeys]

lemma recordCount_append_single {δ : Type} (b : List (String × List δ))
    (e : String × List δ) :
    recordCount (b ++ [e]) = recordCount b + e.2.length := by
  simp [recordCount]

lemma mainLoop_unitsKeys {σ δ : Type} (fetch : σ → List δ)
    (done : List String) (n_file : Nat) :
    ∀ (subjects : List (String × σ)) (batch : List (String × List δ))
      (cnt : Nat) (files : List (List (String × List δ))),
      unitsKeys (mainLoop fetch done n_file subjects batch cnt files)
        = unitsKeys files ++ batch.map Prod.fst
          ++ (subjects.filter (fun p => decide (p.1 ∉ done))).map Prod.fst := by
  intro subjects
  induction subjects with
  | nil =>
    intro batch cnt files
    by_cases hb : 0 < batch.length
    · simp only [mainLoop]
      rw [if_pos hb, unitsKeys_append, unitsKeys_single, List.filter_nil,
        List.map_nil, List.append_nil]
    · have hb2 : batch = [] := by
        cases batch with
        | nil => rfl
        | cons x xs => simp at hb
      subst hb2
      simp only [mainLoop]
      rw [if_neg hb]
      simp
  | cons head rest ih =>
    obtain ⟨s, d⟩ := head
    intro batch cnt files
    by_cases hs : s ∈ done
    · simp only [mainLoop]
      rw [if_pos hs, ih,
        List.filter_cons_of_neg (by simp [hs])]
    · by_cases hf : n_file ≤ cnt + (fetch d).length
      · simp only [mainLoop]
        rw [if_neg hs, if_pos hf, ih, unitsKeys_append, unitsKeys_single,
          List.map_append, List.filter_cons_of_pos (by simp [hs])]
        simp [List.append_assoc]
      · simp only [mainLoop]
        rw [if_neg hs, if_neg hf, ih, List.map_append,
          List.filter_cons_of_pos (by simp [hs])]
        simp [List.append_assoc]

lemma mainLoop_dropLast_ge {σ δ : Type} (fetch : σ → List δ)
    (done : List String) (n_file : Nat) :
    ∀ (subjects : List (String × σ)) (batch : List (String × List δ))
      (cnt : Nat) (files : List (List (String × List δ))),
      cnt = recordCount batch →
      (∀ u ∈ files, n_file ≤ recordCount u) →
      ∀ u ∈ (mainLoop fetch done n_file subjects batch cnt files).dropLast,
        n_file ≤ recordCount u := by
  intro subjects
  induction subjects with
  | nil =>
    intro batch cnt files _ hfiles u hu
    by_cases hb : 0 < batch.length
    · rw [mainLoop, if_pos hb, List.dropLast_concat] at hu
      exact hfiles u hu
    · rw [mainLoop, if_neg hb] at hu
      exact hfiles u ((List.dropLast_sublist files).subset hu)
  | cons head rest ih =>
    obtain ⟨s, d⟩ := head
    intro batch cnt files hcnt hfiles u hu
    by_cases hs : s ∈ done
    · rw [mainLoop, if_pos hs] at hu
      exact ih batch cnt files hcnt hfiles u hu
    · by_cases hf : n_file ≤ cnt + (fetch d).length
      · rw [mainLoop, if_neg hs, if_pos hf] at hu
        refine ih [] 0 _ rfl ?_ u hu
        intro v hv
        rcases List.mem_append.mp hv with hv2 | hv2
        · exact hfiles v hv2
        · have hv3 : v = batch ++ [(s, fetch d)] := by simpa using hv2
          rw [hv3, recordCount_append_single]
          show n_file ≤ recordCount batch + (fetch d).length
          omega
      · rw [mainLoop, if_neg hs, if_neg hf] at hu
        refine ih (batch ++ [(s, fetch d)]) _ files ?_ hfiles u hu
        rw [recordCount_append_single]
        show cnt + (fetch d).length = recordCount batch + (fetch d).length
        omega

/-- Claim C5: the flush threshold is checked against the batch record
count only after a subject completes, so every persisted unit except
the final leftover one holds at least `n_file` records; and with
`n_file = 10` and subjects producing 6 then 7 records, the single flush
happens after the second subject, as one unit holding 13 records. -/
theorem flush_at_subject_boundary :
    (∀ (σ δ : Type) (fetch : σ → List δ) (subjects : List (String × σ))
      (done : List String) (n_file : Nat),
      ∀ u ∈ (mainRun fetch subjects done n_file).dropLast,
        n_file ≤ recordCount u)
    ∧ mainRun (fun k => List.replicate k ()) [("X", 6), ("Y", 7)] [] 10
        = [[("X", List.replicate 6 ()), ("Y", List.replicate 7 ())]] := by
  constructor
  · intro σ δ fetch subjects done n_file u hu
    exact mainLoop_dropLast_ge fetch done n_file subjects [] 0 [] rfl
      (fun v hv => absurd hv (List.not_mem_nil v)) u hu
  · rfl

/-- Witness for C5: with a third subject producing 20 records, the
first flushed unit (13 records, from the 6-record and 7-record
subjects) is not the last and satisfies the threshold. -/
theorem flush_at_subject_boundary_witness :
    (10 : Nat) ≤ recordCount
      [("X", List.replicate 6 ()), ("Y", List.replicate 7 ())] :=
  flush_at_subject_boundary.1 Nat Unit (fun k => List.replicate k ())
    [("X", 6), ("Y", 7), ("Z", 20)] [] 10
    [("X", List.replicate 6 ()), ("Y", List.replicate 7 ())] (by decide)

/-- Claim C6: the run collects the subject keys of all previously
persisted units and excludes exactly those subjects: the subjects
appearing in this run's persisted units are exactly the input subjects
not among the done ones, in order; with prior units covering X and Y
and the full set X, Y, Z, the run processes only Z. -/
theorem resume_excludes_done_subjects :
    (∀ (σ δ ρ : Type) (fetch : σ → List δ)
      (prevFiles : List (List (String × ρ)))
      (subjects : List (String × σ)) (n_file : Nat),
      unitsKeys (mainRun fetch subjects (get_done_subjects prevFiles) n_file)
        = (subjects.filter
            (fun p => decide (p.1 ∉ get_done_subjects prevFiles))).map
              Prod.fst)
    ∧ unitsKeys (mainRun (fun k : Nat => List.replicate k ())
        [("X", 1), ("Y", 1), ("Z", 1)]
        (get_done_subjects [[("X", 0), ("Y", 0)]]) 10) = ["Z"] := by
  constructor
  · intro σ δ ρ fetch prevFiles subjects n_file
    rw [mainRun, mainLoop_unitsKeys]
    simp [unitsKeys]
  · rfl

lemma countP_le_one_of_unitsKeys_nodup {α : Type} (s : String) :
    ∀ files : List (List (String × α)),
      (unitsKeys files).Nodup →
      (files.countP (fun u => decide (s ∈ u.map Prod.fst))) ≤ 1 := by
  intro files
  induction files with
  | nil => intro _; simp
  | cons u rest ih =>
    intro hnd
    rw [unitsKeys] at hnd
    simp only [List.map_cons, List.flatten_cons] at hnd
    rw [List.nodup_append] at hnd
    obtain ⟨_, h2, hdisj⟩ := hnd
    rw [List.countP_cons]
    by_cases hs : s ∈ u.map Prod.fst
    · have hrest : rest.countP (fun u => decide (s ∈ u.map Prod.fst)) = 0 := by
        rw [List.countP_eq_zero]
        intro v hv
        simp only [decide_eq_true_eq]
        intro hsv
        exact hdisj hs (List.mem_flatten.mpr
          ⟨v.map Prod.fst, List.mem_map_of_mem _ hv, hsv⟩)
      rw [hrest]
      simp [hs]
    · have hp : (decide (s ∈ u.map Prod.fst)) = false := by
        simpa using hs
      simp only [hp, Bool.false_eq_true, if_false]
      have := ih h2
      omega

/-- Claim C10: within a single run with distinct subject keys, each
subject appears as a key in at most one persisted unit: the batch is
reset after every flush and each subject is handled once, so no
subject's documents are split across or duplicated in several units. -/
theorem subject_in_at_most_one_unit (σ δ : Type) (fetch : σ → List δ)
    (subjects : List (String × σ)) (done : List String) (n_file : Nat)
    (hnd : (subjects.map Prod.fst).Nodup) (s : String) :
    ((mainRun fetch subjects done n_file).countP
      (fun u => decide (s ∈ u.map Prod.fst))) ≤ 1 := by
  apply countP_le_one_of_unitsKeys_nodup
  rw [mainRun, mainLoop_unitsKeys]
  simp only [unitsKeys, List.map_nil, List.flatten_nil, List.nil_append]
  have hsub : ((subjects.filter (fun p => decide (p.1 ∉ done))).map
      Prod.fst).Sublist (subjects.map Prod.fst) :=
    (List.filter_sublist _).map Prod.fst
  exact hnd.sublist hsub

/-- Witness for C10 at a concrete run of two subjects flushed together:
subject X occurs in exactly one persisted unit. -/
theorem subject_in_at_most_one_unit_witness :
    ((mainRun (fun k : Nat => List.replicate k ()) [("X", 6), ("Y", 7)]
      [] 10).countP
        (fun u => decide ("X" ∈ u.map Prod.fst))) ≤ 1 :=
  subject_in_at_most_one_unit Nat Unit (fun k => List.replicate k ())
    [("X", 6), ("Y", 7)] [] 10 (by decide) "X"

end OpenAlex
